import Mathlib

/-!
Verification of the clip-suggestion backend (`src/main.py`).

The two pure components of the repository are shallowly embedded here:

* `parse_timedtext` — the caption parser (`main.py`, lines 83–96).
* `suggest_clips_from_segments` — the clip suggester (`main.py`, lines 99–155).

Modelling conventions:

* Python floats are modelled as exact rationals (`ℚ`).
* `round(x, 2)` is modelled by `round2`, round-half-to-even on rationals,
  matching Python's documented rounding mode.
* Python strings are Lean `String`s; the handful of string operations used by
  the code (`lower`, `strip`, `join`, substring test, newline replacement,
  the `[.!?]` regex search) are defined below on the character list
  representation, ASCII-faithful to the inputs this program handles.
* The `while` loops of `suggest_clips_from_segments` become structural
  recursions: the inner loop recurses on the remaining-segment suffix, the
  outer loop takes an explicit fuel which `scan` instantiates with
  `segments.length`; fuel sufficiency (loop termination) is proved below.
* An XML document, as observed by `parse_timedtext` via `root.iter("text")`,
  is modelled by the list of its elements in document order
  (`List XElem`); `none` models input that `ET.fromstring` rejects.
-/

/-- One timed caption line, as produced by `parse_timedtext`:
`{"start": .., "dur": .., "end": start + dur, "text": ..}`. -/
structure Segment where
  start : ℚ
  dur : ℚ
  «end» : ℚ
  text : String
deriving DecidableEq, Repr

/-- Default segment used for (always-guarded) list indexing. -/
def dseg : Segment := ⟨0, 0, 0, ""⟩

/-- One clip candidate / selected clip, the dict built at
`main.py` lines 128–134. -/
structure Clip where
  start : ℚ
  «end» : ℚ
  duration : ℚ
  text : String
  score : ℚ
deriving DecidableEq, Repr

/-! ### Rounding (Python `round(x, 2)`) -/

/-- Round-half-to-even to an integer, Python's `round` on a number
modelled exactly. -/
def rndEven (x : ℚ) : ℤ :=
  if x - ⌊x⌋ < 1/2 then ⌊x⌋
  else if 1/2 < x - ⌊x⌋ then ⌊x⌋ + 1
  else if ⌊x⌋ % 2 = 0 then ⌊x⌋ else ⌊x⌋ + 1

/-- Python `round(x, 2)`: round to 2 decimal places, ties to even. -/
def round2 (x : ℚ) : ℚ := (rndEven (100 * x) : ℚ) / 100

/-! ### String helpers (on the character-list representation) -/

/-- Substring test on character lists: Python `pat in s`. -/
def listContains (pat : List Char) : List Char → Bool
  | [] => pat.isEmpty
  | c :: t => pat.isPrefixOf (c :: t) || listContains pat t

/-- Python `s.lower()` (ASCII case mapping, which covers this program's
keyword matching). -/
def strLower (s : String) : String := ⟨s.data.map Char.toLower⟩

/-- Python whitespace characters stripped by `str.strip()`. -/
def isPyWs (c : Char) : Bool :=
  c == ' ' || c == '\t' || c == '\n' || c == '\r' || c == '\x0b' || c == '\x0c'

/-- Python `s.strip()`. -/
def strTrim (s : String) : String :=
  ⟨((s.data.dropWhile isPyWs).reverse.dropWhile isPyWs).reverse⟩

/-- Python `re.search(r"[.!?]", s)` viewed as a Boolean: does `s` contain
terminal punctuation? -/
def hasPunct (s : String) : Bool :=
  s.data.any (fun c => c == '.' || c == '!' || c == '?')

/-- Python `s.replace("\n", " ")` (the pattern is a single character, so this
is a character map). -/
def replaceNewlines (s : String) : String :=
  ⟨s.data.map (fun c => if c == '\n' then ' ' else c)⟩

/-! ### The clip suggester (`suggest_clips_from_segments`) -/

/-- The fixed keyword list of `main.py` lines 104–108. -/
def keywords : List String :=
  ["secret", "tips", "hack", "mistake", "story", "crazy", "insane", "unexpected",
   "how to", "why", "what", "this is", "you need", "stop", "start", "learn",
   "viral", "trick", "strategy", "trend", "money", "growth", "win", "best"]

/-- Candidate construction, `main.py` lines 124–134: keyword score from the
combined window text, length penalty from the unrounded span, rounded
`start`/`end`/`duration`, stripped text, unrounded score. -/
def mkCandidate (min_len max_len startT endT : ℚ) (combined : String) : Clip :=
  let kw_score : ℚ := 2 * (keywords.countP (fun k => listContains k.data (strLower combined).data))
  let length_penalty : ℚ := |(endT - startT) - ((min_len + max_len) / 2)| / 10
  { start := round2 startT
    «end» := round2 endT
    duration := round2 (endT - startT)
    text := strTrim combined
    score := kw_score - length_penalty }

/-- Pause test of `main.py` line 123: `j + 1 < n and
segments[j+1]["start"] - segments[j]["end"] > 0.6`, phrased on the
remaining-segment suffix. -/
def pauseAfter (s : Segment) : List Segment → Bool
  | [] => false
  | s2 :: _ => decide (s2.start - s.«end» > 3/5)

/-- Inner `while` loop of `main.py` lines 118–136, recursing on the
remaining-segment suffix. `j` is the absolute index of the head of the
suffix; `window_text` accumulates the texts appended so far. Returns the
final value of `j` together with the candidate emitted by the `break`
branch, if any. -/
def innerLoop (min_len max_len startT : ℚ) (window_text : List String) (j : ℕ) :
    List Segment → ℕ × Option Clip
  | [] => (j, none)
  | s :: rest =>
    if s.«end» - startT < max_len then
      let wt := window_text ++ [s.text]
      if min_len ≤ s.«end» - startT ∧ (hasPunct s.text = true ∨ pauseAfter s rest = true) then
        (j, some (mkCandidate min_len max_len startT s.«end» (String.intercalate " " wt)))
      else
        innerLoop min_len max_len startT wt (j + 1) rest
    else (j, none)

/-- Outer `while` loop of `main.py` lines 113–137 with explicit fuel; each
iteration records `(i, final j, emitted candidate)` and advances the cursor
to `max (i+1) j`. -/
def outerLoop (segments : List Segment) (min_len max_len : ℚ) :
    ℕ → ℕ → List (ℕ × ℕ × Option Clip)
  | 0, _ => []
  | fuel + 1, i =>
    if i < segments.length then
      let r := innerLoop min_len max_len (segments.getD i dseg).start [] i (segments.drop i)
      (i, r.1, r.2) :: outerLoop segments min_len max_len fuel (max (i + 1) r.1)
    else []

/-- The whole window scan: the outer loop run from `i = 0`. Fuel
`segments.length` is sufficient (proved below): the cursor strictly
increases every iteration. -/
def scan (segments : List Segment) (min_len max_len : ℚ) : List (ℕ × ℕ × Option Clip) :=
  outerLoop segments min_len max_len segments.length 0

/-- The candidate list accumulated by the scan, in generation order
(`candidates` in the source). -/
def candidatesList (segments : List Segment) (min_len max_len : ℚ) : List Clip :=
  (scan segments min_len max_len).filterMap (fun e => e.2.2)

/-- Sort relation of `candidates.sort(key=lambda x: x["score"], reverse=True)`:
descending score. -/
def scoreGE (a b : Clip) : Prop := b.score ≤ a.score

instance : DecidableRel scoreGE := fun a b => inferInstanceAs (Decidable (b.score ≤ a.score))

instance : IsTotal Clip scoreGE := ⟨fun a b => le_total b.score a.score⟩

instance : IsTrans Clip scoreGE := ⟨fun _ _ _ h1 h2 => le_trans h2 h1⟩

/-- Greedy non-overlap selection, `main.py` lines 141–153: walk candidates in
sorted order, stop once `top_k` are selected, skip a candidate overlapping a
used interval (half-open test). -/
def selectLoop (top_k : ℤ) : List Clip → List Clip → List (ℚ × ℚ) → List Clip
  | [], selected, _ => selected
  | c :: rest, selected, used =>
    if top_k ≤ (selected.length : ℤ) then selected
    else if used.any (fun u => !(decide (c.«end» ≤ u.1) || decide (u.2 ≤ c.start))) then
      selectLoop top_k rest selected used
    else
      selectLoop top_k rest (selected ++ [c]) (used ++ [(c.start, c.«end»)])

/-- `suggest_clips_from_segments` (`main.py` lines 99–155). Python's
`list.sort` is stable; `List.insertionSort` with the descending-score
relation is extensionally that stable sort. -/
def suggest_clips_from_segments (segments : List Segment)
    (min_len max_len : ℚ) (top_k : ℤ) : List Clip :=
  if segments.isEmpty then []
  else
    selectLoop top_k
      (List.insertionSort scoreGE (candidatesList segments min_len max_len)) [] []

/-! ### The caption parser (`parse_timedtext`) -/

/-- One markup element as `parse_timedtext` observes it: tag, attributes,
text payload. A well-formed document is its element list in document
order. -/
structure XElem where
  tag : String
  attrib : List (String × String)
  text : Option String
deriving DecidableEq

/-- `root.iter("text")`: the document-order elements whose tag is `t`. -/
def iterTag (doc : List XElem) (t : String) : List XElem :=
  doc.filter (fun e => e.tag == t)

/-- Value of a natural number written in decimal digits. -/
def natOfDigits (l : List Char) : ℕ :=
  l.foldl (fun a c => 10 * a + (c.toNat - 48)) 0

/-- Python `float(s)` on the plain decimal strings this feed carries:
optional sign, integer digits, optional fractional digits; `none` models
the `ValueError` that `float` raises on anything malformed. -/
def parseFloat (s : String) : Option ℚ :=
  let cs := (s.data.dropWhile isPyWs).reverse.dropWhile isPyWs |>.reverse
  let (sgn, body) : ℚ × List Char :=
    match cs with
    | '-' :: r => (-1, r)
    | '+' :: r => (1, r)
    | r => (1, r)
  let intPart := body.takeWhile (fun c => c ≠ '.')
  let restPart := body.dropWhile (fun c => c ≠ '.')
  if intPart.all Char.isDigit then
    match restPart with
    | [] =>
      if intPart.isEmpty then none
      else some (sgn * natOfDigits intPart)
    | '.' :: frac =>
      if frac.all Char.isDigit ∧ ¬(intPart.isEmpty ∧ frac.isEmpty) then
        some (sgn * ((natOfDigits intPart : ℚ) + (natOfDigits frac : ℚ) / (10 : ℚ) ^ frac.length))
      else none
    | _ => none
  else none

/-- `float(node.attrib.get(key, "0"))` as an `Option`: `none` models the
raised `ValueError` on a present-but-malformed attribute. -/
def attrFloat (attrib : List (String × String)) (key : String) : Option ℚ :=
  parseFloat ((attrib.lookup key).getD "0")

/-- Loop body of `parse_timedtext` over the matched elements; `none`
propagates a `float` failure out of the whole loop, as the source's single
`try` block does. -/
def segsOfNodes : List XElem → Option (List Segment)
  | [] => some []
  | nd :: rest => do
    let s ← attrFloat nd.attrib "start"
    let d ← attrFloat nd.attrib "dur"
    let tail ← segsOfNodes rest
    pure ({ start := s, dur := d, «end» := s + d,
            text := replaceNewlines ((nd.text).getD "") } :: tail)

/-- `parse_timedtext` (`main.py` lines 83–96): `none` input models markup
rejected by `ET.fromstring`; any exception inside the loop also yields
`[]`. -/
def parse_timedtext (doc : Option (List XElem)) : List Segment :=
  match doc with
  | none => []
  | some root =>
    match segsOfNodes (iterTag root "text") with
    | some segs => segs
    | none => []

/-! ### Spec-side index views of the window scan, used by theorem statements -/

/-- Cumulative span of the window `[startT, suffix[m].end]`. -/
def spanAt (startT : ℚ) (l : List Segment) (m : ℕ) : ℚ :=
  (l.getD m dseg).«end» - startT

/-- The break condition at position `k` of the suffix: terminal punctuation
in the segment's text, or a pause of more than 0.6 s before the next
segment. -/
def breakAt (l : List Segment) (k : ℕ) : Prop :=
  hasPunct (l.getD k dseg).text = true ∨
    (k + 1 < l.length ∧ (l.getD (k + 1) dseg).start - (l.getD k dseg).«end» > 3/5)

instance (l : List Segment) (k : ℕ) : Decidable (breakAt l k) := by
  unfold breakAt; infer_instance

/-- The per-element Segment the spec describes for `parse_timedtext`:
attribute values parsed as numbers with default `0` when the attribute is
absent, `end = start + dur`, text defaulted to `""` with newlines replaced
by spaces. -/
def segOfNode (nd : XElem) : Segment :=
  { start := (attrFloat nd.attrib "start").getD 0
    dur := (attrFloat nd.attrib "dur").getD 0
    «end» := (attrFloat nd.attrib "start").getD 0 + (attrFloat nd.attrib "dur").getD 0
    text := replaceNewlines ((nd.text).getD "") }

/-! ### Concrete inputs used by scenario theorems, witnesses and
counterexamples -/

/-- The spec's §8 scenario: two segments, the second carrying keywords and
terminal punctuation. -/
def segs3 : List Segment :=
  [⟨0, 10, 10, "hello world"⟩, ⟨10, 15, 25, "this is a secret trick."⟩]

/-- The clip the code actually produces on `segs3` with the default
parameters. -/
def clip3 : Clip :=
  { start := 0, «end» := 25, duration := 25,
    text := "hello world this is a secret trick.", score := 9/2 }

/-- Two segments whose spans from index 0 are non-monotone: segment 0
already exceeds `max_len` while segment 1 would qualify. -/
def segsC2 : List Segment := [⟨0, 70, 70, ""⟩, ⟨0, 30, 30, "a."⟩]

/-- Two segments forming one window `[0,35]` closed at index 1; index 1 then
starts the next window. -/
def segs8 : List Segment := [⟨0, 10, 10, "a"⟩, ⟨10, 25, 35, "b."⟩]

/-- One segment whose span equals `20.0049` exactly. -/
def segsC5 : List Segment := [⟨0, 200049/10000, 200049/10000, "x."⟩]

/-- One segment `[0.004, 20.008]` whose rounded endpoints and rounded span
disagree. -/
def segsC7 : List Segment := [⟨4/1000, 20004/1000, 20008/1000, "x."⟩]

/-- A well-formed document with one `text` element whose `start` attribute
is present but not a number. -/
def badDoc : List XElem := [⟨"text", [("start", "abc")], some "hi"⟩]

/-- A well-formed document: a wrapper element and two `text` elements, one
with attributes and a newline in its payload, one empty. -/
def docW : List XElem :=
  [⟨"transcript", [], none⟩,
   ⟨"text", [("start", "1.5"), ("dur", "2")], some "a\nb"⟩,
   ⟨"text", [], none⟩]

/-- Default scan entry used for (always-guarded) indexing into a scan
trace. -/
def dE : ℕ × ℕ × Option Clip := (0, 0, none)

/-! ### Rounding lemmas -/

theorem mkCandidate_start (a b sT eT : ℚ) (s : String) :
    (mkCandidate a b sT eT s).start = round2 sT := rfl

theorem mkCandidate_end (a b sT eT : ℚ) (s : String) :
    (mkCandidate a b sT eT s).«end» = round2 eT := rfl

theorem mkCandidate_duration (a b sT eT : ℚ) (s : String) :
    (mkCandidate a b sT eT s).duration = round2 (eT - sT) := rfl

theorem rndEven_intCast (m : ℤ) : rndEven (m : ℚ) = m := by
  unfold rndEven
  rw [Int.floor_intCast]
  norm_num

theorem floor_le_rndEven (x : ℚ) : ⌊x⌋ ≤ rndEven x := by
  unfold rndEven
  split_ifs <;> omega

theorem rndEven_le_floor_add_one (x : ℚ) : rndEven x ≤ ⌊x⌋ + 1 := by
  unfold rndEven
  split_ifs <;> omega

theorem abs_rndEven_sub (x : ℚ) : |(rndEven x : ℚ) - x| ≤ 1/2 := by
  have h0 : (⌊x⌋ : ℚ) ≤ x := Int.floor_le x
  have h1 : x < (⌊x⌋ : ℚ) + 1 := Int.lt_floor_add_one x
  unfold rndEven
  split_ifs with hf hg he <;> rw [abs_le] <;> constructor <;> push_cast <;> linarith

theorem round2_of_cent (m : ℤ) : round2 ((m : ℚ) / 100) = (m : ℚ) / 100 := by
  have h : (100 : ℚ) * ((m : ℚ) / 100) = (m : ℚ) := by ring
  rw [round2, h, rndEven_intCast]

theorem round2_ge_cent (a : ℤ) (x : ℚ) (h : (a : ℚ) / 100 ≤ x) :
    (a : ℚ) / 100 ≤ round2 x := by
  have hfl : a ≤ ⌊(100 : ℚ) * x⌋ := by
    rw [Int.le_floor]; linarith
  have := floor_le_rndEven ((100 : ℚ) * x)
  rw [round2]
  have : (a : ℚ) ≤ (rndEven ((100 : ℚ) * x) : ℚ) := by exact_mod_cast le_trans hfl this
  linarith

theorem round2_le_cent (b : ℤ) (x : ℚ) (h : x < (b : ℚ) / 100) :
    round2 x ≤ (b : ℚ) / 100 := by
  have hfl : ⌊(100 : ℚ) * x⌋ < b := by
    rw [Int.floor_lt]; linarith
  have h2 := rndEven_le_floor_add_one ((100 : ℚ) * x)
  have h3 : rndEven ((100 : ℚ) * x) ≤ b := by omega
  rw [round2]
  have : (rndEven ((100 : ℚ) * x) : ℚ) ≤ (b : ℚ) := by exact_mod_cast h3
  linarith

theorem round2_nonneg (x : ℚ) (h : 0 ≤ x) : 0 ≤ round2 x := by
  have := round2_ge_cent 0 x (by simpa using h)
  simpa using this

/-- The key discrepancy bound behind C7: rounding endpoints and rounding the
span can disagree, but by at most one hundredth. -/
theorem round2_sub_est (s e : ℚ) :
    |round2 (round2 e - round2 s) - round2 (e - s)| ≤ 1/100 := by
  set A := rndEven ((100 : ℚ) * e) with hA
  set B := rndEven ((100 : ℚ) * s) with hB
  set C := rndEven ((100 : ℚ) * (e - s)) with hC
  have hdiff : round2 e - round2 s = ((A - B : ℤ) : ℚ) / 100 := by
    rw [round2, round2]; push_cast; ring
  have hfix : round2 (round2 e - round2 s) = ((A - B : ℤ) : ℚ) / 100 := by
    rw [hdiff, round2_of_cent]
  have ha := abs_rndEven_sub ((100 : ℚ) * e)
  have hb := abs_rndEven_sub ((100 : ℚ) * s)
  have hc := abs_rndEven_sub ((100 : ℚ) * (e - s))
  have hsum : |((A - B - C : ℤ) : ℚ)| ≤ 3/2 := by
    have hrw : ((A - B - C : ℤ) : ℚ) =
        ((A : ℚ) - 100 * e) - ((B : ℚ) - 100 * s) - ((C : ℚ) - 100 * (e - s)) := by
      push_cast; ring
    rw [hrw]
    calc |((A : ℚ) - 100 * e) - ((B : ℚ) - 100 * s) - ((C : ℚ) - 100 * (e - s))|
        ≤ |((A : ℚ) - 100 * e) - ((B : ℚ) - 100 * s)| + |(C : ℚ) - 100 * (e - s)| :=
          abs_sub _ _
      _ ≤ |(A : ℚ) - 100 * e| + |(B : ℚ) - 100 * s| + |(C : ℚ) - 100 * (e - s)| := by
          have := abs_sub ((A : ℚ) - 100 * e) ((B : ℚ) - 100 * s)
          linarith
      _ ≤ 3/2 := by linarith
  have hint : |A - B - C| ≤ 1 := by
    have h2 : ((|A - B - C| : ℤ) : ℚ) < 2 := by
      rw [Int.cast_abs]
      exact lt_of_le_of_lt hsum (by norm_num)
    have : |A - B - C| < 2 := by exact_mod_cast h2
    omega
  have hfin : |((A - B - C : ℤ) : ℚ)| ≤ 1 := by
    rw [← Int.cast_abs]
    exact_mod_cast hint
  rw [hfix, round2]
  rw [← hC]
  have hrw2 : ((A - B : ℤ) : ℚ) / 100 - (C : ℚ) / 100 = ((A - B - C : ℤ) : ℚ) / 100 := by
    push_cast; ring
  rw [hrw2, abs_div]
  rw [abs_of_pos (by norm_num : (0:ℚ) < 100)]
  linarith

/-! ### Selection-loop lemmas -/

/-- Half-open non-overlap of two clips, the test at `main.py` line 148. -/
def nonOverlap (a b : Clip) : Prop := a.«end» ≤ b.start ∨ b.«end» ≤ a.start

theorem selectLoop_pairwise (top_k : ℤ) (l : List Clip) :
    ∀ (sel : List Clip) (used : List (ℚ × ℚ)),
    used = sel.map (fun c => (c.start, c.«end»)) →
    sel.Pairwise nonOverlap →
    (selectLoop top_k l sel used).Pairwise nonOverlap := by
  induction l with
  | nil => intro sel used _ hsel; simpa [selectLoop] using hsel
  | cons c rest ih =>
    intro sel used hused hsel
    by_cases hg : top_k ≤ (sel.length : ℤ)
    · simpa [selectLoop, if_pos hg] using hsel
    · by_cases ho : (used.any fun u => !(decide (c.«end» ≤ u.1) || decide (u.2 ≤ c.start))) = true
      · simp only [selectLoop, if_neg hg, if_pos ho]
        exact ih sel used hused hsel
      · simp only [selectLoop, if_neg hg, if_neg ho]
        apply ih
        · rw [hused]; simp
        · rw [List.pairwise_append]
          refine ⟨hsel, List.pairwise_singleton _ _, ?_⟩
          intro a ha b hb
          have hb' : b = c := by simpa using hb
          have hmem : (a.start, a.«end») ∈ used := by
            rw [hused]; exact List.mem_map_of_mem _ ha
          have hdisj : c.«end» ≤ a.start ∨ a.«end» ≤ c.start := by
            by_contra hcon
            push_neg at hcon
            apply ho
            rw [List.any_eq_true]
            refine ⟨(a.start, a.«end»), hmem, ?_⟩
            simp [not_le.mpr hcon.1, not_le.mpr hcon.2]
          rw [hb']
          exact hdisj.symm

theorem selectLoop_eq_append (top_k : ℤ) (l : List Clip) :
    ∀ (sel : List Clip) (used : List (ℚ × ℚ)),
    ∃ l', l'.Sublist l ∧ selectLoop top_k l sel used = sel ++ l' := by
  induction l with
  | nil => intro sel used; exact ⟨[], List.Sublist.refl [], by simp [selectLoop]⟩
  | cons c rest ih =>
    intro sel used
    by_cases hg : top_k ≤ (sel.length : ℤ)
    · exact ⟨[], List.nil_sublist _, by simp [selectLoop, if_pos hg]⟩
    · by_cases ho : (used.any fun u => !(decide (c.«end» ≤ u.1) || decide (u.2 ≤ c.start))) = true
      · obtain ⟨l', hs, he⟩ := ih sel used
        exact ⟨l', hs.cons c, by simp only [selectLoop, if_neg hg, if_pos ho]; exact he⟩
      · obtain ⟨l', hs, he⟩ := ih (sel ++ [c]) (used ++ [(c.start, c.«end»)])
        refine ⟨c :: l', hs.cons₂ c, ?_⟩
        simp only [selectLoop, if_neg hg, if_neg ho]
        rw [he, List.append_assoc, List.singleton_append]

theorem selectLoop_length_le (top_k : ℤ) (l : List Clip) :
    ∀ (sel : List Clip) (used : List (ℚ × ℚ)),
    (selectLoop top_k l sel used).length ≤ max sel.length top_k.toNat := by
  induction l with
  | nil => intro sel used; simp [selectLoop]
  | cons c rest ih =>
    intro sel used
    by_cases hg : top_k ≤ (sel.length : ℤ)
    · simp only [selectLoop, if_pos hg]
      exact le_max_left _ _
    · by_cases ho : (used.any fun u => !(decide (c.«end» ≤ u.1) || decide (u.2 ≤ c.start))) = true
      · simp only [selectLoop, if_neg hg, if_pos ho]
        exact ih sel used
      · simp only [selectLoop, if_neg hg, if_neg ho]
        have h := ih (sel ++ [c]) (used ++ [(c.start, c.«end»)])
        simp only [List.length_append, List.length_singleton] at h
        omega

theorem mem_selectLoop (top_k : ℤ) (l : List Clip) :
    ∀ (sel : List Clip) (used : List (ℚ × ℚ)) (c : Clip),
    c ∈ selectLoop top_k l sel used → c ∈ sel ∨ c ∈ l := by
  induction l with
  | nil => intro sel used c h; left; simpa [selectLoop] using h
  | cons a rest ih =>
    intro sel used c h
    by_cases hg : top_k ≤ (sel.length : ℤ)
    · simp only [selectLoop, if_pos hg] at h
      exact Or.inl h
    · by_cases ho : (used.any fun u => !(decide (a.«end» ≤ u.1) || decide (u.2 ≤ a.start))) = true
      · simp only [selectLoop, if_neg hg, if_pos ho] at h
        rcases ih sel used c h with h1 | h2
        · exact Or.inl h1
        · exact Or.inr (List.mem_cons_of_mem a h2)
      · simp only [selectLoop, if_neg hg, if_neg ho] at h
        rcases ih (sel ++ [a]) (used ++ [(a.start, a.«end»)]) c h with h1 | h2
        · rcases List.mem_append.mp h1 with h3 | h4
          · exact Or.inl h3
          · exact Or.inr (by simpa using Or.inl (by simpa using h4))
        · exact Or.inr (List.mem_cons_of_mem a h2)

theorem selectLoop_nonpos (top_k : ℤ) (l : List Clip) (h : top_k ≤ 0) :
    selectLoop top_k l [] [] = [] := by
  cases l with
  | nil => simp [selectLoop]
  | cons c rest =>
    simp only [selectLoop, List.length_nil, Nat.cast_zero, if_pos h]

/-! ### Stability of the descending-score sort

Python's `list.sort` is stable; `List.insertionSort scoreGE` realizes that
stable descending sort. Stability is captured observably: for each score
value, the sublist of clips carrying that score is unchanged by sorting. -/

theorem filter_orderedInsert (a : Clip) (l : List Clip) (s : ℚ) :
    (List.orderedInsert scoreGE a l).filter (fun c => decide (c.score = s)) =
      (if a.score = s then a :: l.filter (fun c => decide (c.score = s))
       else l.filter (fun c => decide (c.score = s))) := by
  have hsplit : l.takeWhile (fun b => decide ¬scoreGE a b) ++
      l.dropWhile (fun b => decide ¬scoreGE a b) = l :=
    List.takeWhile_append_dropWhile _ _
  by_cases has : a.score = s
  · have htake : (l.takeWhile (fun b => decide ¬scoreGE a b)).filter
        (fun c => decide (c.score = s)) = [] := by
      rw [List.filter_eq_nil_iff]
      intro x hx
      have hgt := List.mem_takeWhile_imp hx
      simp only [decide_eq_true_eq, scoreGE, not_le] at hgt
      simp only [decide_eq_true_eq]
      intro hxs
      rw [hxs, ← has] at hgt
      exact lt_irrefl _ hgt
    rw [List.orderedInsert_eq_take_drop, List.filter_append, htake, List.nil_append,
      List.filter_cons, if_pos has]
    conv_rhs => rw [← hsplit]
    rw [List.filter_append, htake, List.nil_append]
    simp [has]
  · rw [List.orderedInsert_eq_take_drop, List.filter_append, List.filter_cons, if_neg has]
    conv_rhs => rw [← hsplit]
    rw [List.filter_append]
    simp [has]

theorem insertionSort_filter (l : List Clip) (s : ℚ) :
    (List.insertionSort scoreGE l).filter (fun c => decide (c.score = s)) =
      l.filter (fun c => decide (c.score = s)) := by
  induction l with
  | nil => rfl
  | cons a t ih =>
    simp only [List.insertionSort]
    rw [filter_orderedInsert]
    by_cases has : a.score = s
    · rw [if_pos has, ih, List.filter_cons]
      simp [has]
    · rw [if_neg has, ih, List.filter_cons]
      simp [has]

/-! ### Window-scan lemmas -/

theorem spanAt_cons_zero (startT : ℚ) (s : Segment) (t : List Segment) :
    spanAt startT (s :: t) 0 = s.«end» - startT := by
  simp [spanAt]

theorem spanAt_cons_succ (startT : ℚ) (s : Segment) (t : List Segment) (m : ℕ) :
    spanAt startT (s :: t) (m + 1) = spanAt startT t m := by
  simp [spanAt]

theorem breakAt_cons_zero (s : Segment) (t : List Segment) :
    breakAt (s :: t) 0 ↔ (hasPunct s.text = true ∨ pauseAfter s t = true) := by
  cases t with
  | nil => simp [breakAt, pauseAfter]
  | cons s2 t' => simp [breakAt, pauseAfter]

theorem breakAt_cons_succ (s : Segment) (t : List Segment) (k : ℕ) :
    breakAt (s :: t) (k + 1) ↔ breakAt t k := by
  simp [breakAt, Nat.succ_lt_succ_iff]

/-- Full characterization of the inner loop: when it emits, the window closes
at the first in-guard position whose span has reached `min_len` and whose
break condition holds, and the emitted candidate is `mkCandidate` of that
window; when it does not emit, no in-guard position qualifies. -/
theorem innerLoop_spec (min_len max_len startT : ℚ) :
    ∀ (l : List Segment) (wt : List String) (j : ℕ),
    (∀ j' c, innerLoop min_len max_len startT wt j l = (j', some c) →
      ∃ k, k < l.length ∧ j' = j + k ∧
        (∀ m, m ≤ k → spanAt startT l m < max_len) ∧
        min_len ≤ spanAt startT l k ∧ breakAt l k ∧
        (∀ m, m < k → ¬(min_len ≤ spanAt startT l m ∧ breakAt l m)) ∧
        c = mkCandidate min_len max_len startT ((l.getD k dseg).«end»)
              (String.intercalate " " (wt ++ (l.take (k + 1)).map Segment.text))) ∧
    ((innerLoop min_len max_len startT wt j l).2 = none →
      ∀ k, k < l.length → (∀ m, m ≤ k → spanAt startT l m < max_len) →
        ¬(min_len ≤ spanAt startT l k ∧ breakAt l k)) := by
  intro l
  induction l with
  | nil =>
    intro wt j
    constructor
    · intro j' c h
      simp [innerLoop] at h
    · intro _ k hk
      simp at hk
  | cons s t ih =>
    intro wt j
    by_cases hg : s.«end» - startT < max_len
    · by_cases hb : min_len ≤ s.«end» - startT ∧ (hasPunct s.text = true ∨ pauseAfter s t = true)
      · constructor
        · intro j' c h
          simp only [innerLoop, if_pos hg, if_pos hb, Prod.mk.injEq, Option.some.injEq] at h
          refine ⟨0, by simp, by omega, ?_, ?_, ?_, by omega, ?_⟩
          · intro m hm
            have hm0 : m = 0 := by omega
            rw [hm0, spanAt_cons_zero]
            exact hg
          · rw [spanAt_cons_zero]
            exact hb.1
          · exact (breakAt_cons_zero s t).mpr hb.2
          · rw [← h.2]
            simp
        · intro h
          simp only [innerLoop, if_pos hg, if_pos hb] at h
          exact absurd h (by simp)
      · have heq : innerLoop min_len max_len startT wt j (s :: t) =
            innerLoop min_len max_len startT (wt ++ [s.text]) (j + 1) t := by
          simp only [innerLoop, if_pos hg, if_neg hb]
        obtain ⟨ihs, ihn⟩ := ih (wt ++ [s.text]) (j + 1)
        constructor
        · intro j' c h
          rw [heq] at h
          obtain ⟨k', hk', hj', hguard, hmin, hbrk, hfirst, hc⟩ := ihs j' c h
          refine ⟨k' + 1, by simp only [List.length_cons]; omega, by omega, ?_, ?_, ?_, ?_, ?_⟩
          · intro m hm
            cases m with
            | zero => rw [spanAt_cons_zero]; exact hg
            | succ m' => rw [spanAt_cons_succ]; exact hguard m' (by omega)
          · rw [spanAt_cons_succ]; exact hmin
          · exact (breakAt_cons_succ s t k').mpr hbrk
          · intro m hm
            cases m with
            | zero =>
              rintro ⟨hm1, hm2⟩
              rw [spanAt_cons_zero] at hm1
              exact hb ⟨hm1, (breakAt_cons_zero s t).mp hm2⟩
            | succ m' =>
              rintro ⟨hm1, hm2⟩
              rw [spanAt_cons_succ] at hm1
              exact hfirst m' (by omega) ⟨hm1, (breakAt_cons_succ s t m').mp hm2⟩
          · rw [hc]
            have harr : (wt ++ [s.text]) ++ (t.take (k' + 1)).map Segment.text =
                wt ++ ((s :: t).take (k' + 1 + 1)).map Segment.text := by
              simp [List.append_assoc]
            rw [harr, List.getD_cons_succ]
        · intro h
          rw [heq] at h
          intro k hk hguard
          cases k with
          | zero =>
            rintro ⟨h1, h2⟩
            rw [spanAt_cons_zero] at h1
            exact hb ⟨h1, (breakAt_cons_zero s t).mp h2⟩
          | succ k' =>
            have hg' : ∀ m, m ≤ k' → spanAt startT t m < max_len := by
              intro m hm
              have := hguard (m + 1) (by omega)
              rwa [spanAt_cons_succ] at this
            rintro ⟨h1, h2⟩
            rw [spanAt_cons_succ] at h1
            exact ihn h k' (by simpa using hk) hg' ⟨h1, (breakAt_cons_succ s t k').mp h2⟩
    · constructor
      · intro j' c h
        simp only [innerLoop, if_neg hg] at h
        exact absurd h (by simp)
      · intro _ k _ hguard
        intro _
        apply hg
        have := hguard 0 (Nat.zero_le k)
        rwa [spanAt_cons_zero] at this

theorem mem_outerLoop (segments : List Segment) (min_len max_len : ℚ) :
    ∀ (fuel i₀ : ℕ) (e : ℕ × ℕ × Option Clip),
    e ∈ outerLoop segments min_len max_len fuel i₀ →
      e.1 < segments.length ∧ i₀ ≤ e.1 ∧
      e.2 = innerLoop min_len max_len (segments.getD e.1 dseg).start [] e.1
              (segments.drop e.1) := by
  intro fuel
  induction fuel with
  | zero => intro i₀ e h; simp [outerLoop] at h
  | succ f ih =>
    intro i₀ e h
    by_cases hi : i₀ < segments.length
    · simp only [outerLoop, if_pos hi] at h
      rcases List.mem_cons.mp h with he | ht
      · subst he
        exact ⟨hi, le_refl _, rfl⟩
      · obtain ⟨h1, h2, h3⟩ := ih _ e ht
        refine ⟨h1, ?_, h3⟩
        have hmx := le_max_left (i₀ + 1)
          (innerLoop min_len max_len (segments.getD i₀ dseg).start [] i₀ (segments.drop i₀)).1
        omega
    · simp [outerLoop, if_neg hi] at h

theorem outerLoop_pairwise (segments : List Segment) (min_len max_len : ℚ) :
    ∀ (fuel i₀ : ℕ),
    (outerLoop segments min_len max_len fuel i₀).Pairwise
      (fun a b => a.1 < b.1 ∧ max (a.1 + 1) a.2.1 ≤ b.1) := by
  intro fuel
  induction fuel with
  | zero => intro i₀; simp [outerLoop]
  | succ f ih =>
    intro i₀
    by_cases hi : i₀ < segments.length
    · simp only [outerLoop, if_pos hi]
      refine List.Pairwise.cons ?_ (ih _)
      intro b hb
      obtain ⟨h1, h2, h3⟩ := mem_outerLoop segments min_len max_len f _ b hb
      have hmx := le_max_left (i₀ + 1)
        (innerLoop min_len max_len (segments.getD i₀ dseg).start [] i₀ (segments.drop i₀)).1
      exact ⟨by omega, h2⟩
    · simp [outerLoop, if_neg hi]

theorem outerLoop_fuel (segments : List Segment) (min_len max_len : ℚ) :
    ∀ (f g i : ℕ), segments.length - i ≤ f → segments.length - i ≤ g →
      outerLoop segments min_len max_len f i = outerLoop segments min_len max_len g i := by
  intro f
  induction f with
  | zero =>
    intro g i hf _
    have hi : ¬ i < segments.length := by omega
    cases g with
    | zero => rfl
    | succ g' => simp [outerLoop, if_neg hi]
  | succ f' ih =>
    intro g i hf hg
    by_cases hi : i < segments.length
    · cases g with
      | zero => exact absurd hi (by omega)
      | succ g' =>
        simp only [outerLoop, if_pos hi]
        congr 1
        have hmx := le_max_left (i + 1)
          (innerLoop min_len max_len (segments.getD i dseg).start [] i (segments.drop i)).1
        exact ih g' _ (by omega) (by omega)
    · cases g with
      | zero => simp [outerLoop, if_neg hi]
      | succ g' => simp [outerLoop, if_neg hi]

theorem getD_drop (l : List Segment) (i k : ℕ) :
    (l.drop i).getD k dseg = l.getD (i + k) dseg := by
  rw [List.getD_eq_getElem?_getD, List.getD_eq_getElem?_getD, List.getElem?_drop]

/-- Every generated candidate is `mkCandidate` of a window of the input whose
unrounded span lies in `[min_len, max_len)`. -/
theorem mem_candidatesList_spec (segments : List Segment) (min_len max_len : ℚ) (c : Clip)
    (h : c ∈ candidatesList segments min_len max_len) :
    ∃ i k, i < segments.length ∧ i + k < segments.length ∧
      min_len ≤ (segments.getD (i + k) dseg).«end» - (segments.getD i dseg).start ∧
      (segments.getD (i + k) dseg).«end» - (segments.getD i dseg).start < max_len ∧
      c = mkCandidate min_len max_len ((segments.getD i dseg).start)
            ((segments.getD (i + k) dseg).«end»)
            (String.intercalate " " (((segments.drop i).take (k + 1)).map Segment.text)) := by
  rw [candidatesList, List.mem_filterMap] at h
  obtain ⟨e, he, hee⟩ := h
  obtain ⟨hi, _, he2⟩ := mem_outerLoop segments min_len max_len segments.length 0 e he
  have heq : innerLoop min_len max_len (segments.getD e.1 dseg).start [] e.1 (segments.drop e.1)
      = (e.2.1, some c) := by
    rw [← he2]
    exact Prod.ext rfl hee
  obtain ⟨k, hk, hj, hguard, hmin, hbrk, hfirst, hc⟩ :=
    (innerLoop_spec min_len max_len _ (segments.drop e.1) [] e.1).1 e.2.1 c heq
  rw [List.length_drop] at hk
  have hspan := hmin
  have hspan2 := hguard k (le_refl k)
  unfold spanAt at hspan hspan2
  rw [getD_drop] at hspan hspan2
  refine ⟨e.1, k, hi, by omega, hspan, hspan2, ?_⟩
  rw [hc, getD_drop]
  simp

theorem mem_suggest (segments : List Segment) (min_len max_len : ℚ) (top_k : ℤ) (c : Clip)
    (h : c ∈ suggest_clips_from_segments segments min_len max_len top_k) :
    c ∈ candidatesList segments min_len max_len := by
  rw [suggest_clips_from_segments] at h
  by_cases hs : segments.isEmpty
  · rw [if_pos hs] at h; simp at h
  · rw [if_neg hs] at h
    rcases mem_selectLoop top_k _ [] [] c h with h1 | h2
    · simp at h1
    · exact (List.perm_insertionSort scoreGE _).mem_iff.mp h2

/-! ### Parser lemmas -/

theorem segsOfNodes_map (l : List XElem)
    (h : ∀ nd ∈ l, (attrFloat nd.attrib "start").isSome = true ∧
        (attrFloat nd.attrib "dur").isSome = true) :
    segsOfNodes l = some (l.map segOfNode) := by
  induction l with
  | nil => rfl
  | cons nd rest ih =>
    obtain ⟨hs, hd⟩ := h nd (List.mem_cons_self nd rest)
    obtain ⟨sv, hsv⟩ := Option.isSome_iff_exists.mp hs
    obtain ⟨dv, hdv⟩ := Option.isSome_iff_exists.mp hd
    have hrest := ih (fun x hx => h x (List.mem_cons_of_mem _ hx))
    simp [segsOfNodes, hsv, hdv, hrest, segOfNode]

theorem innerLoop_j_bounds (min_len max_len startT : ℚ) :
    ∀ (l : List Segment) (wt : List String) (j : ℕ),
    j ≤ (innerLoop min_len max_len startT wt j l).1 ∧
    (innerLoop min_len max_len startT wt j l).1 ≤ j + l.length := by
  intro l
  induction l with
  | nil => intro wt j; simp [innerLoop]
  | cons s t ih =>
    intro wt j
    by_cases hg : s.«end» - startT < max_len
    · by_cases hb : min_len ≤ s.«end» - startT ∧ (hasPunct s.text = true ∨ pauseAfter s t = true)
      · simp [innerLoop, if_pos hg, if_pos hb]
      · simp only [innerLoop, if_pos hg, if_neg hb]
        have h := ih (wt ++ [s.text]) (j + 1)
        constructor
        · omega
        · simp only [List.length_cons]; omega
    · simp [innerLoop, if_neg hg]

/-! ### Claim theorems -/

/-- C1: the clips returned by one call to `suggest_clips_from_segments` are
pairwise non-overlapping under half-open semantics: for every pair of
returned clips in result order, `a.end ≤ b.start` or `a.start ≥ b.end`, so
sharing a single boundary instant does not count as overlap. -/
theorem claimC1_nonoverlap (segments : List Segment) (min_len max_len : ℚ) (top_k : ℤ) :
    (suggest_clips_from_segments segments min_len max_len top_k).Pairwise nonOverlap := by
  rw [suggest_clips_from_segments]
  split
  · exact List.Pairwise.nil
  · exact selectLoop_pairwise top_k _ [] [] rfl List.Pairwise.nil

/-- C2 (amended): for outer index `i`, scanning `j` upward from `i` while
`j < n` and the span stays below `max_len`, a candidate is emitted exactly
when some SCANNED position (every earlier position in guard as well) has
span at least `min_len` and satisfies the break condition; the window then
closes at the first such position (`j' = i + k`). The claim's unguarded
"some inner index j ≥ i with span in `[min_len, max_len)`" is refuted by
`claimC2_counterexample`. Positions are relative to the suffix
`segments.drop i`, whose element `k` is `segments[i + k]`. -/
theorem claimC2_amended (segments : List Segment) (min_len max_len : ℚ) (i : ℕ) :
    (((innerLoop min_len max_len (segments.getD i dseg).start [] i
        (segments.drop i)).2.isSome = true) ↔
      ∃ k, k < (segments.drop i).length ∧
        (∀ m, m ≤ k → spanAt (segments.getD i dseg).start (segments.drop i) m < max_len) ∧
        min_len ≤ spanAt (segments.getD i dseg).start (segments.drop i) k ∧
        breakAt (segments.drop i) k) ∧
    (∀ j' c,
      innerLoop min_len max_len (segments.getD i dseg).start [] i (segments.drop i) =
        (j', some c) →
      ∃ k, k < (segments.drop i).length ∧ j' = i + k ∧
        min_len ≤ spanAt (segments.getD i dseg).start (segments.drop i) k ∧
        breakAt (segments.drop i) k ∧
        ∀ m, m < k →
          ¬(min_len ≤ spanAt (segments.getD i dseg).start (segments.drop i) m ∧
            breakAt (segments.drop i) m)) := by
  obtain ⟨hsome, hnone⟩ :=
    innerLoop_spec min_len max_len (segments.getD i dseg).start (segments.drop i) [] i
  constructor
  · constructor
    · intro h
      rcases hres : innerLoop min_len max_len (segments.getD i dseg).start [] i
          (segments.drop i) with ⟨j', oc⟩
      cases oc with
      | none => rw [hres] at h; simp at h
      | some c =>
        obtain ⟨k, hk, _, hguard, hmin, hbrk, _, _⟩ := hsome j' c hres
        exact ⟨k, hk, hguard, hmin, hbrk⟩
    · rintro ⟨k, hk, hguard, hmin, hbrk⟩
      rcases hres : innerLoop min_len max_len (segments.getD i dseg).start [] i
          (segments.drop i) with ⟨j', oc⟩
      cases oc with
      | some c => rfl
      | none =>
        exfalso
        have hn : (innerLoop min_len max_len (segments.getD i dseg).start [] i
            (segments.drop i)).2 = none := by rw [hres]
        exact hnone hn k hk hguard ⟨hmin, hbrk⟩
  · intro j' c h
    obtain ⟨k, hk, hj, _, hmin, hbrk, hfirst, _⟩ := hsome j' c h
    exact ⟨k, hk, hj, hmin, hbrk, hfirst⟩

/-- C2 counterexample: on `segsC2` with `min_len = 20`, `max_len = 60`, the
scan emits nothing for outer index 0 (the loop stops at once because
segment 0's span is 70 ≥ 60), yet inner index `j = 1 ≥ 0` has span
`30 ∈ [20, 60)` and satisfies the break condition — so the claim's
"emitted exactly when some inner index j ≥ i ..." biconditional is false
at this input. -/
theorem claimC2_counterexample :
    ((scan segsC2 20 60).getD 0 dE).1 = 0 ∧
    ((scan segsC2 20 60).getD 0 dE).2.2 = none ∧
    20 ≤ spanAt ((segsC2.getD 0 dseg).start) segsC2 1 ∧
    spanAt ((segsC2.getD 0 dseg).start) segsC2 1 < 60 ∧
    breakAt segsC2 1 := by
  refine ⟨?_, ?_, ?_, ?_, ?_⟩ <;> with_unfolding_all decide

set_option maxRecDepth 100000 in
/-- C3 (amended): on the spec's scenario input the code emits exactly one
candidate `{start 0, end 25, duration 25, text "hello world this is a
secret trick."}`, but its `kw_score` is `2 × 3 = 6` — the combined text
matches the keywords "secret", "trick" AND "this is" — so the score is
`6 − 1.5 = 4.5`, not the claimed `4` and `2.5`. -/
theorem claimC3_scenario :
    suggest_clips_from_segments segs3 20 60 3 = [clip3] ∧
    clip3.score = 9/2 ∧
    (keywords.countP
      (fun k => listContains k.data
        (strLower "hello world this is a secret trick.").data)) = 3 ∧
    clip3.start = 0 ∧ clip3.«end» = 25 ∧ clip3.duration = 25 ∧
    clip3.text = "hello world this is a secret trick." := by
  refine ⟨?_, ?_, ?_, ?_, ?_, ?_, ?_⟩ <;> with_unfolding_all decide

set_option maxRecDepth 100000 in
/-- C3 counterexample: the output is NOT the claimed single clip with
score 2.5. -/
theorem claimC3_counterexample :
    suggest_clips_from_segments segs3 20 60 3 ≠
      [{ start := 0, «end» := 25, duration := 25,
         text := "hello world this is a secret trick.", score := 5/2 }] := by
  with_unfolding_all decide

/-- C4 (amended): the result length is at most `max(top_k, 0)` (the claim's
"at most top_k" fails for negative `top_k`, see the counterexample); the
result is ordered by non-increasing score; and for every score value the
clips of the result carrying it form a sublist of the generated candidates
carrying it — equal scores keep first-generated-first order, because
Python's stable sort is realized by `insertionSort` here
(`insertionSort_filter`). -/
theorem claimC4_amended (segments : List Segment) (min_len max_len : ℚ) (top_k : ℤ) :
    (suggest_clips_from_segments segments min_len max_len top_k).length ≤ top_k.toNat ∧
    (suggest_clips_from_segments segments min_len max_len top_k).Pairwise scoreGE ∧
    ∀ s : ℚ,
      ((suggest_clips_from_segments segments min_len max_len top_k).filter
        (fun c => decide (c.score = s))).Sublist
      ((candidatesList segments min_len max_len).filter (fun c => decide (c.score = s))) := by
  by_cases hs : segments.isEmpty
  · simp only [suggest_clips_from_segments, if_pos hs]
    refine ⟨by simp, by simp, ?_⟩
    intro s
    simp
  · simp only [suggest_clips_from_segments, if_neg hs]
    obtain ⟨l', hsub, heq⟩ := selectLoop_eq_append top_k
      (List.insertionSort scoreGE (candidatesList segments min_len max_len)) [] []
    refine ⟨?_, ?_, ?_⟩
    · have h := selectLoop_length_le top_k
        (List.insertionSort scoreGE (candidatesList segments min_len max_len)) [] []
      simpa using h
    · rw [heq, List.nil_append]
      exact List.Pairwise.sublist hsub (List.sorted_insertionSort scoreGE _)
    · intro s
      rw [heq, List.nil_append]
      have h1 := List.Sublist.filter (fun c => decide (c.score = s)) hsub
      rwa [insertionSort_filter] at h1

set_option maxRecDepth 100000 in
/-- C4 counterexample: with `top_k = -1` the result is empty, and an empty
result does not have length at most `-1`, so "length at most top_k for
every input" is false as stated. -/
theorem claimC4_counterexample :
    ¬ (((suggest_clips_from_segments segs3 20 60 (-1)).length : ℤ) ≤ -1) := by
  with_unfolding_all decide

/-- C5 (amended): when `min_len` and `max_len` are whole multiples of 0.01
(as the defaults 20 and 60 are), every emitted candidate — and hence every
returned clip — has `min_len ≤ duration ≤ max_len`. For parameters with
more than two decimals the rounded `duration` field can leave the interval
(see the counterexample); the unrounded span always lies in
`[min_len, max_len)` (`mem_candidatesList_spec`). Too-sparse inputs emit no
candidate at all, which this bound statement subsumes. -/
theorem claimC5_amended (segments : List Segment) (min_len max_len : ℚ) (a b : ℤ)
    (ha : min_len = (a : ℚ) / 100) (hb : max_len = (b : ℚ) / 100) :
    (∀ c ∈ candidatesList segments min_len max_len,
      min_len ≤ c.duration ∧ c.duration ≤ max_len) ∧
    ∀ (top_k : ℤ), ∀ c ∈ suggest_clips_from_segments segments min_len max_len top_k,
      min_len ≤ c.duration ∧ c.duration ≤ max_len := by
  have hmain : ∀ c ∈ candidatesList segments min_len max_len,
      min_len ≤ c.duration ∧ c.duration ≤ max_len := by
    intro c hc
    obtain ⟨i, k, hi, hik, hmin, hmax, hceq⟩ :=
      mem_candidatesList_spec segments min_len max_len c hc
    have hdur : c.duration =
        round2 ((segments.getD (i + k) dseg).«end» - (segments.getD i dseg).start) := by
      rw [hceq, mkCandidate_duration]
    rw [hdur]
    constructor
    · rw [ha] at hmin ⊢
      exact round2_ge_cent a _ hmin
    · rw [hb] at hmax ⊢
      exact round2_le_cent b _ hmax
  exact ⟨hmain, fun top_k c hc =>
    hmain c (mem_suggest segments min_len max_len top_k c hc)⟩

/-- C5 witness: the amended bound applied to the scenario input with the
default parameters `20 = 2000/100`, `60 = 6000/100`. -/
theorem claimC5_witness :
    (∀ c ∈ candidatesList segs3 20 60, 20 ≤ c.duration ∧ c.duration ≤ 60) ∧
    ∀ (top_k : ℤ), ∀ c ∈ suggest_clips_from_segments segs3 20 60 top_k,
      20 ≤ c.duration ∧ c.duration ≤ 60 :=
  claimC5_amended segs3 20 60 2000 6000 (by norm_num) (by norm_num)

/-- C5 counterexample: with `min_len = 20.0049` the single emitted candidate
has `duration = 20.00 < min_len` — the span `20.0049` reached `min_len`,
but the stored `duration` field is the span rounded to 2 decimals. -/
theorem claimC5_counterexample :
    (candidatesList segsC5 (200049/10000) 60).map Clip.duration = [20] ∧
    (20 : ℚ) < 200049/10000 := by
  constructor
  · with_unfolding_all decide
  · norm_num

/-- C6 (amended): for a well-formed document all of whose `"text"`-tagged
elements carry parseable (or absent, defaulting to 0) `start`/`dur`
attributes, `parse_timedtext` maps exactly those elements, in document
order, to segments with `end = start + dur` and newline-collapsed,
defaulted text. Elements with other tags yield no segment, and — contrary
to the claim — a present-but-unparseable numeric attribute makes the whole
parse return `[]` rather than defaulting that value to 0
(`claimC6_counterexample`); `parse_timedtext` itself is total. -/
theorem claimC6_parse_defaults (root : List XElem)
    (h : ∀ nd ∈ iterTag root "text",
      (attrFloat nd.attrib "start").isSome = true ∧
      (attrFloat nd.attrib "dur").isSome = true) :
    parse_timedtext (some root) = (iterTag root "text").map segOfNode := by
  simp [parse_timedtext, segsOfNodes_map _ h]

/-- C6 witness: the amended parse theorem applied to a concrete document
with a wrapper element, one fully-attributed `text` element with an
embedded newline, and one empty `text` element. -/
theorem claimC6_witness :
    parse_timedtext (some docW) =
      [{ start := 3/2, dur := 2, «end» := 7/2, text := "a b" },
       { start := 0, dur := 0, «end» := 0, text := "" }] := by
  have h := claimC6_parse_defaults docW (by with_unfolding_all decide)
  rw [h]
  with_unfolding_all decide

/-- C6 counterexample: a well-formed document whose one `text` element has
`start="abc"` parses to `[]`, not to the claimed one-segment list with
`start` defaulted to 0 — the `float` failure aborts the whole loop. -/
theorem claimC6_counterexample :
    parse_timedtext (some badDoc) = [] ∧
    parse_timedtext (some badDoc) ≠
      [{ start := 0, dur := 0, «end» := 0, text := "hi" }] := by
  constructor <;> with_unfolding_all decide

/-- C7 (amended): if every input segment has a non-negative start, every
returned clip has `clip.start ≥ 0`; `start`, `end` and `duration` are the
window's endpoints and span rounded to 2 decimals while `score` is the
exact unrounded value (the clip IS `mkCandidate` of its window); and
`round2 (clip.end - clip.start)` agrees with `clip.duration` only up to
`1/100` — exact equality, as the claim states it, fails
(`claimC7_counterexample`). -/
theorem claimC7_amended (segments : List Segment) (min_len max_len : ℚ) (top_k : ℤ)
    (hpos : ∀ s ∈ segments, 0 ≤ s.start) :
    ∀ c ∈ suggest_clips_from_segments segments min_len max_len top_k,
      0 ≤ c.start ∧
      |round2 (c.«end» - c.start) - c.duration| ≤ 1/100 ∧
      ∃ sT eT combined, min_len ≤ eT - sT ∧ eT - sT < max_len ∧
        c = mkCandidate min_len max_len sT eT combined := by
  intro c hc
  obtain ⟨i, k, hi, hik, hmin, hmax, hceq⟩ := mem_candidatesList_spec segments min_len max_len c
    (mem_suggest segments min_len max_len top_k c hc)
  have hstart : c.start = round2 ((segments.getD i dseg).start) := by
    rw [hceq, mkCandidate_start]
  have hend : c.«end» = round2 ((segments.getD (i + k) dseg).«end») := by
    rw [hceq, mkCandidate_end]
  have hdur : c.duration =
      round2 ((segments.getD (i + k) dseg).«end» - (segments.getD i dseg).start) := by
    rw [hceq, mkCandidate_duration]
  refine ⟨?_, ?_, _, _, _, hmin, hmax, hceq⟩
  · rw [hstart]
    apply round2_nonneg
    apply hpos
    rw [List.getD_eq_getElem segments dseg hi]
    exact List.getElem_mem hi
  · rw [hstart, hend, hdur]
    exact round2_sub_est _ _

set_option maxRecDepth 100000 in
/-- C7 witness: the amended statement applied to the scenario input and its
returned clip. -/
theorem claimC7_witness :
    0 ≤ clip3.start ∧
    |round2 (clip3.«end» - clip3.start) - clip3.duration| ≤ 1/100 ∧
    ∃ sT eT combined, 20 ≤ eT - sT ∧ eT - sT < 60 ∧
      clip3 = mkCandidate 20 60 sT eT combined :=
  claimC7_amended segs3 20 60 3 (by with_unfolding_all decide) clip3
    (by with_unfolding_all decide)

set_option maxRecDepth 100000 in
/-- C7 counterexample: on the data-model-valid single segment
`[0.004, 20.008]` the returned clip has `start = 0`, `end = 20.01`,
`duration = 20.00`, and `round2(end − start) = 20.01 ≠ 20.00 = duration`,
so "end − start rounded equals duration" is false as stated. -/
theorem claimC7_counterexample :
    (suggest_clips_from_segments segsC7 20 60 3).map
      (fun c => (c.start, c.«end», c.duration)) = [(0, 2001/100, 20)] ∧
    round2 ((2001/100 : ℚ) - 0) ≠ 20 ∧
    segsC7 = [⟨4/1000, 20004/1000, 20008/1000, "x."⟩] ∧
    (0 : ℚ) ≤ 4/1000 ∧ (0 : ℚ) ≤ 20004/1000 ∧
    (20008/1000 : ℚ) = 4/1000 + 20004/1000 := by
  exact ⟨by with_unfolding_all decide, by with_unfolding_all decide, rfl,
    by norm_num, by norm_num, by norm_num⟩

/-- C8 (amended): the outer-cursor starts strictly increase, and after a
window `(i, j)` every later window starts at an index at least
`max(i+1, j)`: no index in `{i, ..., j-1}` is ever reused as a start. The
closing index `j` itself CAN start the next window when `j > i`, which
refutes the claim's "no segment of a consumed window is ever reused as a
start" (`claimC8_counterexample`). -/
theorem claimC8_amended (segments : List Segment) (min_len max_len : ℚ) :
    (scan segments min_len max_len).Pairwise
      (fun a b => a.1 < b.1 ∧ max (a.1 + 1) a.2.1 ≤ b.1) :=
  outerLoop_pairwise segments min_len max_len segments.length 0

/-- C8 counterexample: on `segs8` the scan emits a candidate for the window
`i = 0 .. j = 1` and then starts (and emits) another window at index 1 —
a constituent segment of the first, emitted window. -/
theorem claimC8_counterexample :
    (scan segs8 20 60).length = 2 ∧
    ((scan segs8 20 60).getD 0 dE).2.2.isSome = true ∧
    ((scan segs8 20 60).getD 1 dE).2.2.isSome = true ∧
    ((scan segs8 20 60).getD 0 dE).1 ≤ ((scan segs8 20 60).getD 1 dE).1 ∧
    ((scan segs8 20 60).getD 1 dE).1 ≤ ((scan segs8 20 60).getD 0 dE).2.1 := by
  refine ⟨?_, ?_, ?_, ?_, ?_⟩ <;> with_unfolding_all decide

/-- C9: the scan terminates within `segments.length` outer iterations — any
fuel at least `segments.length` computes the same trace as `scan` — the
visited outer indices strictly increase, and each inner loop leaves
`i ≤ j ≤ n`. -/
theorem claimC9_termination (segments : List Segment) (min_len max_len : ℚ) (fuel : ℕ)
    (h : segments.length ≤ fuel) :
    outerLoop segments min_len max_len fuel 0 = scan segments min_len max_len ∧
    (scan segments min_len max_len).Pairwise (fun a b => a.1 < b.1) ∧
    ∀ e ∈ scan segments min_len max_len, e.1 ≤ e.2.1 ∧ e.2.1 ≤ segments.length := by
  refine ⟨?_, ?_, ?_⟩
  · rw [scan]
    exact outerLoop_fuel segments min_len max_len fuel segments.length 0 (by omega) (by omega)
  · exact (outerLoop_pairwise segments min_len max_len segments.length 0).imp (fun h => h.1)
  · intro e he
    obtain ⟨h1, _, h3⟩ := mem_outerLoop segments min_len max_len segments.length 0 e he
    have hb := innerLoop_j_bounds min_len max_len (segments.getD e.1 dseg).start
      (segments.drop e.1) [] e.1
    rw [← h3] at hb
    rw [List.length_drop] at hb
    exact ⟨hb.1, by omega⟩

/-- C9 witness: fuel 5 suffices for the two-segment scenario input. -/
theorem claimC9_witness :
    outerLoop segs3 20 60 5 0 = scan segs3 20 60 ∧
    (scan segs3 20 60).Pairwise (fun a b => a.1 < b.1) ∧
    ∀ e ∈ scan segs3 20 60, e.1 ≤ e.2.1 ∧ e.2.1 ≤ segs3.length :=
  claimC9_termination segs3 20 60 5 (by decide)

/-- C10: a non-positive `top_k` yields the empty result: the selection loop
admits a candidate only while fewer than `top_k` are selected. -/
theorem claimC10_nonpos (segments : List Segment) (min_len max_len : ℚ) (top_k : ℤ)
    (h : top_k ≤ 0) :
    suggest_clips_from_segments segments min_len max_len top_k = [] := by
  rw [suggest_clips_from_segments]
  by_cases hs : segments.isEmpty
  · rw [if_pos hs]
  · rw [if_neg hs]
    exact selectLoop_nonpos top_k _ h

/-- C10 witness: the scenario input with `top_k = 0` returns no clips even
though a candidate exists. -/
theorem claimC10_witness : suggest_clips_from_segments segs3 20 60 0 = [] :=
  claimC10_nonpos segs3 20 60 0 (by decide)
